import Mathlib

/-!
Shallow embedding of the statistical core of the rubisco repository
(`notebooks/power_laws.py` and `notebooks/stats_utils.py`), together with
theorems checking the documented behaviour of each operation.

Modelling conventions:
* Python floats are modelled by `Rubisco.FV α` (a finite value, NaN, or a
  signed infinity).  Measured data in `stats_utils.py` is embedded over `ℚ`
  (floats are rationals), log-scale data handed to the fitters in
  `power_laws.py` is embedded over `ℝ` (logarithms are irrational).
* Sampling from `np.random` is modelled by an explicit oracle: a stream
  `rng : ℕ → ℚ` of standard-normal draws, with
  `np.random.normal(loc, scale, n)` consuming `n` draws as `loc + scale * z`,
  and an index oracle `choice : ℕ → List ℕ` for `np.random.choice`.
  Distributional facts about the oracles are outside the embedding.
* The iterative ODRPACK optimiser reached through `scipy.odr` is modelled as
  an oracle receiving exactly the data the source hands it (the model
  function, the masked data, and the initial parameter guess) and returning
  the optimised parameter vector.  Likewise the Student t survival function
  used for the p-value of `linregress` is an oracle `tsf`.
* Real division by zero is `0` in Lean where IEEE floats would give NaN or an
  infinity; no theorem below depends on the value produced on such a path.
-/

namespace Rubisco

/-- Model of an IEEE double: a finite value of the carrier type, NaN, or a
signed infinity. -/
inductive FV (α : Type) where
  | fin (x : α)
  | nan
  | pinf
  | ninf
deriving DecidableEq

namespace FV

/-- Model of `np.isfinite`. -/
def isFinite {α : Type} : FV α → Bool
  | fin _ => true
  | _ => false

/-- Model of `np.isnan`. -/
def isNan {α : Type} : FV α → Bool
  | nan => true
  | _ => false

/-- The finite payload of a float; non-finite values map to the junk value 0.
Every use below sits under a mask or a finiteness guard that rules the junk
value out. -/
def val {α : Type} [Zero α] : FV α → α
  | fin x => x
  | _ => 0

end FV

/-! ### Embedding of `stats_utils.py` -/

/-- Model of `np.random.normal(mean, std, n)`: the draws are
`mean + std * z` where `z` runs through the standard-normal oracle stream
`rng` starting at position `start`.  (The validation numpy performs on the
scale argument is not modelled.) -/
def normal_samples (rng : ℕ → ℚ) (start : ℕ) (mean std : ℚ) (n : ℕ) : List ℚ :=
  (List.range n).map fun i => mean + std * rng (start + i)

/-- Sorted copy of a list, ascending (the sort used by `np.median` and
`np.percentile`). -/
def sortQ (l : List ℚ) : List ℚ :=
  l.mergeSort (fun a b => decide (a ≤ b))

/-- Model of `np.median`: middle element of the sorted data for odd length,
mean of the two middle elements for even length.  (numpy returns NaN on empty
input; here the junk value 0 results, and no theorem uses that case.) -/
def npMedian (l : List ℚ) : ℚ :=
  let s := sortQ l
  let n := s.length
  if n % 2 = 1 then s.getD (n / 2) 0
  else (s.getD (n / 2 - 1) 0 + s.getD (n / 2) 0) / 2

/-- Model of `np.percentile(l, q)` with the default linear interpolation:
the virtual position is `q/100 * (n-1)`; the result interpolates between the
two neighbouring order statistics. -/
def npPercentile (l : List ℚ) (q : ℚ) : ℚ :=
  let s := sortQ l
  let n := s.length
  let pos : ℚ := q / 100 * ((n : ℚ) - 1)
  let i : ℕ := (⌊pos⌋).toNat
  let lo := s.getD i 0
  lo + (pos - (⌊pos⌋ : ℚ)) * (s.getD (i + 1) lo - lo)

/-- The pair `np.percentile(vals, [2.5, 97.5])` used for every 95% CI in
`stats_utils.py`. -/
def conf95 (l : List ℚ) : ℚ × ℚ :=
  (npPercentile l (5/2), npPercentile l (195/2))

/-- Mean of a rational sample (`np.mean`); empty input gives the junk value
0 where numpy warns and returns NaN. -/
def npMeanQ (l : List ℚ) : ℚ :=
  l.sum / (l.length : ℚ)

/-- Population variance of a rational sample (the square of `np.std` with the
default `ddof=0`). -/
def npVarQ (l : List ℚ) : ℚ :=
  npMeanQ (l.map fun x => (x - npMeanQ l) ^ 2)

/-- Model of `combine_dists(means, stds, n)` from `stats_utils.py`: draw `n`
normal samples per `(mean, std)` pair (consuming the oracle stream blockwise),
concatenate all draws (`np.hstack`), and return the mean and standard
deviation of the pooled sample. -/
noncomputable def combine_dists (rng : ℕ → ℚ) (means stds : List ℚ) (n : ℕ) :
    ℚ × ℝ :=
  let l := (means.zip stds).enum.map fun p => normal_samples rng (p.1 * n) p.2.1 p.2.2 n
  let combined := l.flatten
  (npMeanQ combined, Real.sqrt (npVarQ combined))

/-- The record held by the `RubiscoKinetics` class: eight measured floats and
six derived fields, the latter absent (`None`) until `infer` fills them. -/
structure RubiscoKinetics where
  vC : FV ℚ
  vC_SD : FV ℚ
  KC : FV ℚ
  KC_SD : FV ℚ
  KO : FV ℚ
  KO_SD : FV ℚ
  S : FV ℚ
  S_SD : FV ℚ
  vO : Option ℚ := none
  vO_95CI : Option (ℚ × ℚ) := none
  kon_C : Option ℚ := none
  kon_C_95CI : Option (ℚ × ℚ) := none
  kon_O : Option ℚ := none
  kon_O_95CI : Option (ℚ × ℚ) := none
deriving DecidableEq

namespace RubiscoKinetics

/-- Model of `RubiscoKinetics.has_carb`: vC, vC_SD, KC, KC_SD all finite. -/
def has_carb (r : RubiscoKinetics) : Bool :=
  r.vC.isFinite && r.vC_SD.isFinite && r.KC.isFinite && r.KC_SD.isFinite

/-- Model of `RubiscoKinetics.has_all`: all eight measured fields finite. -/
def has_all (r : RubiscoKinetics) : Bool :=
  r.vC.isFinite && r.vC_SD.isFinite && r.KC.isFinite && r.KC_SD.isFinite &&
  r.KO.isFinite && r.KO_SD.isFinite && r.S.isFinite && r.S_SD.isFinite

/-- Model of `RubiscoKinetics.infer(n)`.  The Python method runs two
successive guarded blocks; the second reads the local sample arrays `vC` and
`KC` created by the first, so it can only execute when the first did
(`has_all` checks every conjunct of `has_carb`; see
`has_all_imp_has_carb`).  The nested conditional below reproduces exactly
that reachable control flow.  In-place mutation is embedded as returning the
updated record. -/
def infer (rng : ℕ → ℚ) (r : RubiscoKinetics) (n : ℕ) : RubiscoKinetics :=
  if r.has_carb then
    let vC := normal_samples rng 0 r.vC.val r.vC_SD.val n
    let KC := normal_samples rng n r.KC.val r.KC_SD.val n
    let kon_C_vals := List.zipWith (· / ·) vC KC
    let r1 := { r with
      kon_C := some (npMedian kon_C_vals),
      kon_C_95CI := some (conf95 kon_C_vals) }
    if r.has_all then
      let KO := normal_samples rng (2 * n) r.KO.val r.KO_SD.val n
      let S := normal_samples rng (3 * n) r.S.val r.S_SD.val n
      -- vO = KO * vC / (S * KC)
      let vO_vals := List.zipWith (· / ·)
        (List.zipWith (· * ·) KO vC) (List.zipWith (· * ·) S KC)
      -- kon_O = vC / (S * KC)
      let kon_O_vals := List.zipWith (· / ·) vC (List.zipWith (· * ·) S KC)
      { r1 with
        vO := some (npMedian vO_vals),
        vO_95CI := some (conf95 vO_vals),
        kon_O := some (npMedian kon_O_vals),
        kon_O_95CI := some (conf95 kon_O_vals) }
    else r1
  else r

end RubiscoKinetics

/-- Every conjunct of `has_carb` is among the conjuncts of `has_all`. -/
theorem has_all_imp_has_carb (r : RubiscoKinetics) (h : r.has_all = true) :
    r.has_carb = true := by
  simp only [RubiscoKinetics.has_all, Bool.and_eq_true] at h
  simp only [RubiscoKinetics.has_carb, Bool.and_eq_true]
  exact ⟨⟨⟨h.1.1.1.1.1.1.1, h.1.1.1.1.1.1.2⟩, h.1.1.1.1.1.2⟩, h.1.1.1.1.2⟩

open RubiscoKinetics

/-- Constant standard-normal oracle used by the concrete instances below. -/
def rngW : ℕ → ℚ := fun _ => 0

/-- A record with all eight measured fields finite. -/
def recAll : RubiscoKinetics :=
  { vC := .fin 1, vC_SD := .fin 1, KC := .fin 2, KC_SD := .fin 1,
    KO := .fin 3, KO_SD := .fin 1, S := .fin 4, S_SD := .fin 1 }

/-- A record with finite carboxylation data but a NaN oxygenation field. -/
def recCarb : RubiscoKinetics :=
  { vC := .fin 1, vC_SD := .fin 1, KC := .fin 2, KC_SD := .fin 1,
    KO := .nan, KO_SD := .fin 1, S := .fin 4, S_SD := .fin 1 }

/-- A record with no finite measured field at all. -/
def recNone : RubiscoKinetics :=
  { vC := .nan, vC_SD := .nan, KC := .nan, KC_SD := .nan,
    KO := .nan, KO_SD := .nan, S := .nan, S_SD := .nan }

/-- C9: `infer` never changes the eight measured fields, and when neither
readiness predicate holds it changes nothing at all and raises no error (it
is a total function returning the record unchanged). -/
theorem infer_frame (rng : ℕ → ℚ) (r : RubiscoKinetics) (n : ℕ) :
    ((infer rng r n).vC = r.vC ∧ (infer rng r n).vC_SD = r.vC_SD ∧
     (infer rng r n).KC = r.KC ∧ (infer rng r n).KC_SD = r.KC_SD ∧
     (infer rng r n).KO = r.KO ∧ (infer rng r n).KO_SD = r.KO_SD ∧
     (infer rng r n).S = r.S ∧ (infer rng r n).S_SD = r.S_SD) ∧
    (r.has_carb = false ∧ r.has_all = false → infer rng r n = r) := by
  constructor
  · unfold infer
    by_cases hc : r.has_carb
    · by_cases ha : r.has_all <;> simp [hc, ha]
    · simp [hc]
  · rintro ⟨hc, -⟩
    unfold infer
    simp [hc]

/-- C9 witness: on a record with every measured field NaN, `infer` is the
identity. -/
theorem infer_frame_witness :
    (recNone.has_carb = false ∧ recNone.has_all = false) ∧
      infer rngW recNone 3 = recNone :=
  ⟨⟨rfl, rfl⟩, (infer_frame rngW recNone 3).2 ⟨rfl, rfl⟩⟩

/-- C3: on a record with complete data, `infer` draws `n` normal samples for
KO and S (besides the vC and KC samples of the carboxylation branch), forms
the elementwise sample arrays `KO * vC / (S * KC)` and `vC / (S * KC)`, and
sets each derived point estimate to the sample median with the 95% CI at the
2.5th and 97.5th percentiles. -/
theorem infer_complete_data (rng : ℕ → ℚ) (r : RubiscoKinetics) (n : ℕ)
    (hall : r.has_all = true) (hn : 0 < n) :
    (normal_samples rng (2 * n) r.KO.val r.KO_SD.val n).length = n ∧
    (normal_samples rng (3 * n) r.S.val r.S_SD.val n).length = n ∧
    (infer rng r n).vO = some (npMedian (List.zipWith (· / ·)
      (List.zipWith (· * ·) (normal_samples rng (2 * n) r.KO.val r.KO_SD.val n)
        (normal_samples rng 0 r.vC.val r.vC_SD.val n))
      (List.zipWith (· * ·) (normal_samples rng (3 * n) r.S.val r.S_SD.val n)
        (normal_samples rng n r.KC.val r.KC_SD.val n)))) ∧
    (infer rng r n).vO_95CI = some (conf95 (List.zipWith (· / ·)
      (List.zipWith (· * ·) (normal_samples rng (2 * n) r.KO.val r.KO_SD.val n)
        (normal_samples rng 0 r.vC.val r.vC_SD.val n))
      (List.zipWith (· * ·) (normal_samples rng (3 * n) r.S.val r.S_SD.val n)
        (normal_samples rng n r.KC.val r.KC_SD.val n)))) ∧
    (infer rng r n).kon_O = some (npMedian (List.zipWith (· / ·)
      (normal_samples rng 0 r.vC.val r.vC_SD.val n)
      (List.zipWith (· * ·) (normal_samples rng (3 * n) r.S.val r.S_SD.val n)
        (normal_samples rng n r.KC.val r.KC_SD.val n)))) ∧
    (infer rng r n).kon_O_95CI = some (conf95 (List.zipWith (· / ·)
      (normal_samples rng 0 r.vC.val r.vC_SD.val n)
      (List.zipWith (· * ·) (normal_samples rng (3 * n) r.S.val r.S_SD.val n)
        (normal_samples rng n r.KC.val r.KC_SD.val n)))) := by
  have hc := has_all_imp_has_carb r hall
  refine ⟨by simp [normal_samples], by simp [normal_samples], ?_, ?_, ?_, ?_⟩ <;>
    simp [infer, hc, hall]

/-- C3 witness at a concrete complete record. -/
theorem infer_complete_data_witness :
    recAll.has_all = true ∧ 0 < 2 ∧
      (infer rngW recAll 2).vO = some (npMedian (List.zipWith (· / ·)
        (List.zipWith (· * ·) (normal_samples rngW 4 recAll.KO.val recAll.KO_SD.val 2)
          (normal_samples rngW 0 recAll.vC.val recAll.vC_SD.val 2))
        (List.zipWith (· * ·) (normal_samples rngW 6 recAll.S.val recAll.S_SD.val 2)
          (normal_samples rngW 2 recAll.KC.val recAll.KC_SD.val 2)))) :=
  ⟨rfl, by decide, (infer_complete_data rngW recAll 2 rfl (by decide)).2.2.1⟩

/-- C5: with finite carboxylation data but a non-finite oxygenation or
specificity field, `infer` fills `kon_C` with the median of the elementwise
`vC / KC` samples and its CI with the 2.5th and 97.5th percentiles, and the
four oxygenation-derived fields stay `none`. -/
theorem infer_carb_only (rng : ℕ → ℚ) (r : RubiscoKinetics) (n : ℕ)
    (hcarb : r.has_carb = true)
    (hmiss : r.KO.isFinite = false ∨ r.KO_SD.isFinite = false ∨
      r.S.isFinite = false ∨ r.S_SD.isFinite = false)
    (hn : 0 < n)
    (h1 : r.vO = none) (h2 : r.vO_95CI = none)
    (h3 : r.kon_O = none) (h4 : r.kon_O_95CI = none) :
    (infer rng r n).kon_C = some (npMedian (List.zipWith (· / ·)
      (normal_samples rng 0 r.vC.val r.vC_SD.val n)
      (normal_samples rng n r.KC.val r.KC_SD.val n))) ∧
    (infer rng r n).kon_C_95CI = some (conf95 (List.zipWith (· / ·)
      (normal_samples rng 0 r.vC.val r.vC_SD.val n)
      (normal_samples rng n r.KC.val r.KC_SD.val n))) ∧
    (infer rng r n).vO = none ∧ (infer rng r n).vO_95CI = none ∧
    (infer rng r n).kon_O = none ∧ (infer rng r n).kon_O_95CI = none := by
  have hna : r.has_all = false := by
    rcases hmiss with h | h | h | h <;> simp [has_all, h]
  refine ⟨?_, ?_, ?_, ?_, ?_, ?_⟩ <;>
    simp [infer, hcarb, hna, h1, h2, h3, h4]

/-- C5 witness at a concrete record whose KO is NaN. -/
theorem infer_carb_only_witness :
    recCarb.has_carb = true ∧ recCarb.KO.isFinite = false ∧ 0 < 2 ∧
      (infer rngW recCarb 2).kon_C = some (npMedian (List.zipWith (· / ·)
        (normal_samples rngW 0 recCarb.vC.val recCarb.vC_SD.val 2)
        (normal_samples rngW 2 recCarb.KC.val recCarb.KC_SD.val 2))) ∧
      (infer rngW recCarb 2).vO = none ∧ (infer rngW recCarb 2).kon_O = none :=
  ⟨rfl, rfl, by decide,
    (infer_carb_only rngW recCarb 2 rfl (Or.inl rfl) (by decide) rfl rfl rfl rfl).1,
    (infer_carb_only rngW recCarb 2 rfl (Or.inl rfl) (by decide) rfl rfl rfl rfl).2.2.1,
    (infer_carb_only rngW recCarb 2 rfl (Or.inl rfl) (by decide) rfl rfl rfl rfl).2.2.2.2.1⟩

/-- C10: complete data implies carboxylation data, so whenever `infer` fills
the oxygenation-derived fields it has also filled `kon_C` in the same call,
and `kon_O` is computed from the very vC and KC sample arrays drawn in the
carboxylation branch (stream offsets 0 and n). -/
theorem has_all_subsumes_carb (rng : ℕ → ℚ) (r : RubiscoKinetics) (n : ℕ)
    (hall : r.has_all = true) (hn : 0 < n) :
    r.has_carb = true ∧
    (infer rng r n).kon_C = some (npMedian (List.zipWith (· / ·)
      (normal_samples rng 0 r.vC.val r.vC_SD.val n)
      (normal_samples rng n r.KC.val r.KC_SD.val n))) ∧
    (infer rng r n).kon_C_95CI = some (conf95 (List.zipWith (· / ·)
      (normal_samples rng 0 r.vC.val r.vC_SD.val n)
      (normal_samples rng n r.KC.val r.KC_SD.val n))) ∧
    (infer rng r n).kon_O = some (npMedian (List.zipWith (· / ·)
      (normal_samples rng 0 r.vC.val r.vC_SD.val n)
      (List.zipWith (· * ·) (normal_samples rng (3 * n) r.S.val r.S_SD.val n)
        (normal_samples rng n r.KC.val r.KC_SD.val n)))) := by
  have hc := has_all_imp_has_carb r hall
  refine ⟨hc, ?_, ?_, ?_⟩ <;> simp [infer, hc, hall]

/-- C10 witness at a concrete complete record. -/
theorem has_all_subsumes_carb_witness :
    recAll.has_all = true ∧ 0 < 2 ∧ recAll.has_carb = true ∧
      (infer rngW recAll 2).kon_C = some (npMedian (List.zipWith (· / ·)
        (normal_samples rngW 0 recAll.vC.val recAll.vC_SD.val 2)
        (normal_samples rngW 2 recAll.KC.val recAll.KC_SD.val 2))) :=
  ⟨rfl, by decide, (has_all_subsumes_carb rngW recAll 2 rfl (by decide)).1,
    (has_all_subsumes_carb rngW recAll 2 rfl (by decide)).2.1⟩

/-- C8: `combine_dists` draws `n` samples per (mean, std) pair, pools the
`k * n` draws into one sample, and returns the pooled mean and standard
deviation; with a single zero-std distribution every draw equals the mean,
so the result is exactly (mean, 0). -/
theorem combine_dists_spec (rng : ℕ → ℚ) (means stds : List ℚ) (n : ℕ)
    (hlen : means.length = stds.length) (hpos : 1 ≤ means.length) :
    (((means.zip stds).enum.map fun p =>
        normal_samples rng (p.1 * n) p.2.1 p.2.2 n).flatten.length
      = means.length * n) ∧
    combine_dists rng means stds n =
      (npMeanQ (((means.zip stds).enum.map fun p =>
          normal_samples rng (p.1 * n) p.2.1 p.2.2 n).flatten),
        Real.sqrt (npVarQ (((means.zip stds).enum.map fun p =>
          normal_samples rng (p.1 * n) p.2.1 p.2.2 n).flatten))) ∧
    (∀ rng' : ℕ → ℚ, combine_dists rng' [5] [0] 100 = (5, 0)) := by
  refine ⟨?_, rfl, ?_⟩
  · rw [List.length_flatten]
    have h1 : ∀ p : ℕ × ℚ × ℚ,
        (normal_samples rng (p.1 * n) p.2.1 p.2.2 n).length = n := by
      intro p; simp [normal_samples]
    rw [List.map_map]
    have h2 : (List.length ∘ fun p : ℕ × ℚ × ℚ =>
        normal_samples rng (p.1 * n) p.2.1 p.2.2 n) = fun _ => n := by
      funext p; exact h1 p
    rw [h2, List.map_const', List.sum_replicate, smul_eq_mul,
      List.enum_length, List.length_zip, hlen, Nat.min_self]
  · intro rng'
    have hsamp : normal_samples rng' 0 5 0 100 = List.replicate 100 5 := by
      simp [normal_samples]
    have hpool : (([((5 : ℚ), (0 : ℚ))].enum.map fun p =>
        normal_samples rng' (p.1 * 100) p.2.1 p.2.2 100).flatten
          = List.replicate 100 (5 : ℚ)) := by
      simp [List.enum, hsamp]
    have hmean : npMeanQ (List.replicate 100 (5 : ℚ)) = 5 := by
      rw [npMeanQ, List.sum_replicate, List.length_replicate, nsmul_eq_mul]
      norm_num
    have h0 : npMeanQ (List.replicate 100 (0 : ℚ)) = 0 := by
      rw [npMeanQ, List.sum_replicate, smul_zero]
      norm_num
    have hvar : npVarQ (List.replicate 100 (5 : ℚ)) = 0 := by
      rw [npVarQ, List.map_replicate, hmean]
      have h5 : ((5 : ℚ) - 5) ^ 2 = 0 := by norm_num
      rw [h5, h0]
    unfold combine_dists
    have hz : ([(5 : ℚ)].zip [(0 : ℚ)]) = [((5 : ℚ), (0 : ℚ))] := rfl
    simp only [hz, hpool, hmean, hvar, Rat.cast_zero, Real.sqrt_zero]

/-- C8 witness instantiating the pooled-sample description at the degenerate
zero-std input. -/
theorem combine_dists_spec_witness :
    ([(5 : ℚ)].length = [(0 : ℚ)].length ∧ 1 ≤ [(5 : ℚ)].length) ∧
      combine_dists rngW [5] [0] 100 = (5, 0) :=
  ⟨⟨rfl, by decide⟩,
    (combine_dists_spec rngW [5] [0] 100 rfl (by decide)).2.2 rngW⟩

/-! ### Embedding of `power_laws.py` -/

/-- Exceptions surfacing from the scipy calls in `power_laws.py`, plus the
error of the spec-modelled total-least-squares fitter. -/
inductive PyErr where
  /-- ValueError raised by `scipy.stats.linregress` on empty input. -/
  | emptyInput
  /-- ValueError raised by `scipy.stats.pearsonr` on input shorter than 2. -/
  | pearsonTooShort
  /-- DegenerateAxisError of the spec-modelled `fit_tls`. -/
  | degenerateAxis
deriving DecidableEq

/-- Mean of a real sample (`np.mean`); empty input gives the junk value 0. -/
noncomputable def meanR (l : List ℝ) : ℝ := l.sum / (l.length : ℝ)

/-- Biased (population) second moment `ssxm` of `np.cov(x, y, bias=1)`:
the mean squared deviation. -/
noncomputable def ssxmOf (xs : List ℝ) : ℝ :=
  meanR (xs.map fun x => (x - meanR xs) ^ 2)

/-- Biased mixed moment `ssxym` of `np.cov(x, y, bias=1)`: the mean product
of deviations. -/
noncomputable def ssxymOf (xs ys : List ℝ) : ℝ :=
  meanR ((xs.zip ys).map fun p => (p.1 - meanR xs) * (p.2 - meanR ys))

/-- The two-sided clamp `scipy.stats.linregress` applies to its correlation
coefficient. -/
noncomputable def clip1 (r : ℝ) : ℝ :=
  if r > 1 then 1 else if r < -1 then -1 else r

/-- The `rvalue` computed by `scipy.stats.linregress`: 0 when either variance
vanishes, otherwise the clamped Pearson correlation
`ssxym / sqrt(ssxm * ssym)`.  Note this is the correlation itself, not its
square. -/
noncomputable def rvalOf (xs ys : List ℝ) : ℝ :=
  if ssxmOf xs = 0 ∨ ssxmOf ys = 0 then 0
  else clip1 (ssxymOf xs ys / Real.sqrt (ssxmOf xs * ssxmOf ys))

/-- The slope `ssxym / ssxm` of `scipy.stats.linregress`. -/
noncomputable def slopeOf (xs ys : List ℝ) : ℝ := ssxymOf xs ys / ssxmOf xs

/-- The intercept `ymean - slope * xmean` of `scipy.stats.linregress`. -/
noncomputable def interceptOf (xs ys : List ℝ) : ℝ :=
  meanR ys - slopeOf xs ys * meanR xs

/-- Result record of `scipy.stats.linregress`. -/
structure LinRes where
  slope : ℝ
  intercept : ℝ
  rvalue : ℝ
  pvalue : ℝ
  stderr : ℝ

/-- The `TINY` regulariser of `scipy.stats.linregress`. -/
noncomputable def tiny : ℝ := 1e-20

/-- The computation `scipy.stats.linregress` performs on nonempty input.
`tsf` is the survival function of the Student t distribution (an oracle
here), used only for the p-value.  For `n = 2` scipy short-circuits the
p-value and standard error exactly as below. -/
noncomputable def linregressRes (tsf : ℝ → ℝ → ℝ) (xs ys : List ℝ) : LinRes :=
  if xs.length = 2 then
    { slope := slopeOf xs ys, intercept := interceptOf xs ys,
      rvalue := rvalOf xs ys,
      pvalue := if ys.getD 0 0 = ys.getD 1 0 then 1 else 0, stderr := 0 }
  else
    let df : ℝ := (xs.length : ℝ) - 2
    let r := rvalOf xs ys
    let t := r * Real.sqrt (df / ((1 - r + tiny) * (1 + r + tiny)))
    { slope := slopeOf xs ys, intercept := interceptOf xs ys, rvalue := r,
      pvalue := 2 * tsf |t| df,
      stderr := Real.sqrt ((1 - r ^ 2) * ssxmOf ys / ssxmOf xs / df) }

/-- Model of `scipy.stats.linregress`: raises ValueError on empty input,
otherwise computes `linregressRes`. -/
noncomputable def linregress (tsf : ℝ → ℝ → ℝ) (xs ys : List ℝ) :
    Except PyErr LinRes :=
  if xs.length = 0 ∨ ys.length = 0 then .error .emptyInput
  else .ok (linregressRes tsf xs ys)

/-- The mask of `fit_power_law` (line 45): it removes NaN entries only —
infinities pass through (the non-finite payload then maps to the junk value
0, a path no theorem exercises). -/
def maskNan (xs ys : List (FV ℝ)) : List (ℝ × ℝ) :=
  (xs.zip ys).filterMap fun p =>
    if !p.1.isNan && !p.2.isNan then some (p.1.val, p.2.val) else none

/-- Model of `fit_power_law(log_xs, log_ys)`: mask NaN pairs, run ordinary
least squares on the remaining data, and return
`(slope, exp(intercept), r_val, p_val, stderr)`.  The third component is the
`rvalue` of linregress passed through unsquared, although the docstring of
the source calls it `r2`. -/
noncomputable def fit_power_law (tsf : ℝ → ℝ → ℝ) (log_xs log_ys : List (FV ℝ)) :
    Except PyErr (ℝ × ℝ × ℝ × ℝ × ℝ) :=
  let pts := maskNan log_xs log_ys
  (linregress tsf (pts.map Prod.fst) (pts.map Prod.snd)).map fun lr =>
    (lr.slope, Real.exp lr.intercept, lr.rvalue, lr.pvalue, lr.stderr)

/-- The unclamped Pearson correlation used by `scipy.stats.pearsonr` (on
constant input, where scipy emits NaN, the division by zero yields the junk
value 0; no theorem depends on that path). -/
noncomputable def pearsonVal (xs ys : List ℝ) : ℝ :=
  let num := ((xs.zip ys).map fun p => (p.1 - meanR xs) * (p.2 - meanR ys)).sum
  let den := Real.sqrt ((xs.map fun x => (x - meanR xs) ^ 2).sum *
    (ys.map fun y => (y - meanR ys) ^ 2).sum)
  max (min (num / den) 1) (-1)

/-- Model of `scipy.stats.pearsonr` (first component only, as consumed by the
source): raises ValueError when either input has fewer than 2 entries. -/
noncomputable def pearsonr (xs ys : List ℝ) : Except PyErr ℝ :=
  if xs.length < 2 ∨ ys.length < 2 then .error .pearsonTooShort
  else .ok (pearsonVal xs ys)

/-- The ODR model function of the source, `p[0] * x + p[1]`. -/
noncomputable def lin_f (p : List ℝ) (x : ℝ) : ℝ := p.getD 0 0 * x + p.getD 1 0

/-- The ODR model function of the source for the unit-exponent fit,
`x + p[0]`. -/
noncomputable def slope_one (p : List ℝ) (x : ℝ) : ℝ := x + p.getD 0 0

/-- The mask of `fit_power_law_odr` (lines 68-69): NaN and non-finite
entries are both removed. -/
def odrMask (xs ys : List (FV ℝ)) : List (ℝ × ℝ) :=
  (xs.zip ys).filterMap fun p =>
    if (!p.1.isNan && !p.2.isNan) && (p.1.isFinite && p.2.isFinite)
    then some (p.1.val, p.2.val) else none

/-- Model of `fit_power_law_odr(log_xs, log_ys, unit_exp)`.  `odrRun` is the
ODRPACK optimiser oracle: it receives the model function, the masked data and
the initial parameter guess obtained from linregress, and returns the
optimised parameter vector `out.beta`.  With `unit_exp` the model is
`slope_one`, only the intercept is optimised, and the slope is the literal
constant 1; otherwise both parameters come from `out.beta`.  The returned
correlation is `pearsonr(ys_, slope * xs_ + intercept)`, unsquared. -/
noncomputable def fit_power_law_odr
    (odrRun : (List ℝ → ℝ → ℝ) → List ℝ → List ℝ → List ℝ → List ℝ)
    (tsf : ℝ → ℝ → ℝ) (log_xs log_ys : List (FV ℝ)) (unit_exp : Bool) :
    Except PyErr (ℝ × ℝ × ℝ) :=
  let xs_ := (odrMask log_xs log_ys).map Prod.fst
  let ys_ := (odrMask log_xs log_ys).map Prod.snd
  (linregress tsf xs_ ys_).bind fun lr =>
    let beta := if unit_exp then odrRun slope_one xs_ ys_ [lr.intercept]
      else odrRun lin_f xs_ ys_ [lr.slope, lr.intercept]
    let slope := if unit_exp then 1 else beta.getD 0 0
    let intercept := if unit_exp then beta.getD 0 0 else beta.getD 1 0
    (pearsonr ys_ (xs_.map fun x => slope * x + intercept)).map fun r =>
      (slope, Real.exp intercept, r)

/-- Python `int()` truncation toward zero, applied to a rational. -/
def pyInt (q : ℚ) : ℤ := if 0 ≤ q then ⌊q⌋ else -⌊-q⌋

/-- The finite mask of `bootstrap_power_law_odr` (line 112): pairs where
both coordinates are finite, in order. -/
def bootstrapValid (xs ys : List (FV ℚ)) : List (ℚ × ℚ) :=
  (xs.zip ys).filterMap fun p =>
    if p.1.isFinite && p.2.isFinite then some (p.1.val, p.2.val) else none

/-- The subsample size `int(fraction * tot)` of `bootstrap_power_law_odr`. -/
def subsetSize (xs ys : List (FV ℚ)) (fraction : ℚ) : ℕ :=
  (pyInt (fraction * ((bootstrapValid xs ys).length : ℚ))).toNat

/-- Model of `np.log` on a float: finite positive values map to their real
logarithm, zero to -inf, negative values to NaN. -/
noncomputable def npLogQ (q : ℚ) : FV ℝ :=
  if 0 < q then .fin (Real.log (q : ℝ)) else if q = 0 then .ninf else .nan

/-- One round of the loop of `bootstrap_power_law_odr` (lines 122-130):
index the masked arrays by the drawn index list `choice k` (the oracle for
`np.random.choice(tot, subset_size)`), take natural logs, and run the ODR
fit. -/
noncomputable def bootstrapRound
    (odrRun : (List ℝ → ℝ → ℝ) → List ℝ → List ℝ → List ℝ → List ℝ)
    (tsf : ℝ → ℝ → ℝ) (choice : ℕ → List ℕ) (xs ys : List (FV ℚ)) (k : ℕ) :
    Except PyErr (ℝ × ℝ × ℝ) :=
  let valid := bootstrapValid xs ys
  let xs_sub := (choice k).map fun i => (valid.map Prod.fst).getD i 0
  let ys_sub := (choice k).map fun i => (valid.map Prod.snd).getD i 0
  fit_power_law_odr odrRun tsf (xs_sub.map npLogQ) (ys_sub.map npLogQ) false

/-- Model of `bootstrap_power_law_odr(xs, ys, fraction, rounds)`: run
`rounds` rounds (an exception in any round aborts the whole call, as in
Python) and collect the exponents, prefactors and correlations.  The index
oracle `choice` stands for `np.random.choice(tot, subset_size)`; theorems
constrain it to produce `subsetSize xs ys fraction` indices below the number
of valid pairs, the guarantee the numpy call provides. -/
noncomputable def bootstrap_power_law_odr
    (odrRun : (List ℝ → ℝ → ℝ) → List ℝ → List ℝ → List ℝ → List ℝ)
    (tsf : ℝ → ℝ → ℝ) (choice : ℕ → List ℕ) (xs ys : List (FV ℚ))
    (fraction : ℚ) (rounds : ℕ) :
    Except PyErr (List ℝ × List ℝ × List ℝ) :=
  match (List.range rounds).mapM
      (fun k => bootstrapRound odrRun tsf choice xs ys k) with
  | .error e => .error e
  | .ok rs => .ok (rs.map fun t => t.1, rs.map fun t => t.2.1,
      rs.map fun t => t.2.2)

/-- Modelled from the spec: `fit_tls` is described in the specification but
absent from the source tree (only the unused `sklearn.decomposition.PCA`
name brought into `power_laws.py` points at it).  The first principal axis
of the centered cloud is the leading eigenvector of the biased covariance matrix
`[[sxx, sxy], [sxy, syy]]`: for `sxy` nonzero it is `(sxy, lam - sxx)` with
`lam` the larger eigenvalue; for `sxy = 0` the matrix is diagonal and the
axis follows the coordinate of larger variance (ties keep the x axis). -/
noncomputable def tlsAxis (pts : List (ℝ × ℝ)) : ℝ × ℝ :=
  let xs := pts.map Prod.fst
  let ys := pts.map Prod.snd
  let sxx := ssxmOf xs
  let syy := ssxmOf ys
  let sxy := ssxymOf xs ys
  if sxy = 0 then (if syy ≤ sxx then (1, 0) else (0, 1))
  else (sxy, (sxx + syy + Real.sqrt ((sxx - syy) ^ 2 + 4 * sxy ^ 2)) / 2 - sxx)

/-- Modelled from the spec: `fit_tls(log_xs, log_ys)` masks NaN and
non-finite entries, computes the first principal axis of the centered cloud,
fails with DegenerateAxisError when the x component of that axis is zero,
and otherwise returns exponent `axis_y / axis_x`, prefactor
`exp(mean_y - exponent * mean_x)`, and the coefficient of determination of
the predictions along the fitted line. -/
noncomputable def fit_tls (log_xs log_ys : List (FV ℝ)) :
    Except PyErr (ℝ × ℝ × ℝ) :=
  let pts := odrMask log_xs log_ys
  let a := tlsAxis pts
  if a.1 = 0 then .error .degenerateAxis
  else
    let xs_ := pts.map Prod.fst
    let ys_ := pts.map Prod.snd
    let exponent := a.2 / a.1
    let intercept := meanR ys_ - exponent * meanR xs_
    let preds := xs_.map fun x => exponent * x + intercept
    .ok (exponent, Real.exp intercept,
      1 - ((ys_.zip preds).map fun p => (p.1 - p.2) ^ 2).sum /
        (ys_.map fun y => (y - meanR ys_) ^ 2).sum)

/-! ### Theorems about the fitters -/

/-- Constant Student-t survival-function oracle for concrete instances. -/
noncomputable def tsfW : ℝ → ℝ → ℝ := fun _ _ => 0

/-- ODR oracle returning the initial guess unchanged, for concrete
instances. -/
noncomputable def odrW : (List ℝ → ℝ → ℝ) → List ℝ → List ℝ → List ℝ → List ℝ :=
  fun _ _ _ b => b

/-- C1: evaluating `fit_power_law` on the fully finite two-point log data
x = [0, 1], y = [1, 0] returns the Pearson correlation -1 as its third
component (with exponent -1, prefactor e, p-value 0 and stderr 0).  The
squared Pearson correlation there is 1; the returned goodness-of-fit value
is negative, so the code returns r, not r^2, contradicting its own
docstring. -/
theorem fit_power_law_returns_unsquared_r :
    fit_power_law tsfW [FV.fin 0, FV.fin 1] [FV.fin 1, FV.fin 0] =
      .ok (-1, Real.exp 1, -1, 0, 0) ∧ ¬(0 ≤ (-1 : ℝ)) := by
  have hxm : meanR [(0 : ℝ), 1] = 1 / 2 := by norm_num [meanR]
  have hym : meanR [(1 : ℝ), 0] = 1 / 2 := by norm_num [meanR]
  have hssx : ssxmOf [(0 : ℝ), 1] = 1 / 4 := by
    unfold ssxmOf
    rw [hxm]
    norm_num [meanR]
  have hssy : ssxmOf [(1 : ℝ), 0] = 1 / 4 := by
    unfold ssxmOf
    rw [hym]
    norm_num [meanR]
  have hssxy : ssxymOf [(0 : ℝ), 1] [(1 : ℝ), 0] = -(1 / 4) := by
    unfold ssxymOf
    rw [hxm, hym]
    norm_num [meanR, List.zip_cons_cons, List.zip_nil_right]
  have hsq : Real.sqrt ((1 / 4 : ℝ) * (1 / 4)) = 1 / 4 := by
    rw [show ((1 : ℝ) / 4 * (1 / 4)) = (1 / 4) ^ 2 by norm_num,
      Real.sqrt_sq (by norm_num : (0 : ℝ) ≤ 1 / 4)]
  have hr : rvalOf [(0 : ℝ), 1] [(1 : ℝ), 0] = -1 := by
    unfold rvalOf
    rw [hssx, hssy, hssxy, hsq, if_neg (by norm_num)]
    unfold clip1
    rw [show (-(1 / 4) : ℝ) / (1 / 4) = -1 by norm_num,
      if_neg (by norm_num), if_neg (by norm_num)]
  have hsl : slopeOf [(0 : ℝ), 1] [(1 : ℝ), 0] = -1 := by
    unfold slopeOf
    rw [hssxy, hssx]
    norm_num
  have hic : interceptOf [(0 : ℝ), 1] [(1 : ℝ), 0] = 1 := by
    unfold interceptOf
    rw [hsl, hxm, hym]
    norm_num
  have hres : linregressRes tsfW [(0 : ℝ), 1] [(1 : ℝ), 0] =
      { slope := -1, intercept := 1, rvalue := -1, pvalue := 0, stderr := 0 } := by
    unfold linregressRes
    rw [if_pos (by norm_num : ([(0 : ℝ), 1]).length = 2), hsl, hic, hr,
      if_neg (by norm_num [List.getD_cons_zero, List.getD_cons_succ] :
        ¬([(1 : ℝ), 0].getD 0 0 = [(1 : ℝ), 0].getD 1 0))]
  constructor
  · have hmask : maskNan [FV.fin 0, FV.fin 1] [FV.fin 1, FV.fin 0] =
        [((0 : ℝ), (1 : ℝ)), (1, 0)] := rfl
    simp only [fit_power_law, linregress, hmask, List.map_cons, List.map_nil]
    rw [if_neg (by norm_num), hres]
    rfl
  · norm_num

/-- C2 counterexample: on log data with exactly one non-NaN pair,
`fit_power_law` returns normally (an `ok` result) instead of raising any
insufficient-data exception. -/
theorem fit_power_law_one_pair_returns :
    (maskNan [FV.fin 0, FV.nan] [FV.fin 0, FV.fin 0]).length = 1 ∧
      (fit_power_law tsfW [FV.fin 0, FV.nan] [FV.fin 0, FV.fin 0]).isOk = true :=
  ⟨rfl, rfl⟩

/-- C2 amended: after the NaN mask, `fit_power_law` fails only when zero
valid pairs remain — and then with the ValueError of the underlying library,
not a dedicated insufficient-data error; with one or more valid pairs
(in particular exactly one) it returns normally. -/
theorem fit_power_law_error_iff_empty (tsf : ℝ → ℝ → ℝ)
    (log_xs log_ys : List (FV ℝ)) :
    (maskNan log_xs log_ys ≠ [] →
      (fit_power_law tsf log_xs log_ys).isOk = true) ∧
    (maskNan log_xs log_ys = [] →
      fit_power_law tsf log_xs log_ys = .error PyErr.emptyInput) := by
  constructor
  · intro h
    simp only [fit_power_law, linregress]
    rw [if_neg]
    · rfl
    · simp only [List.length_map, List.length_eq_zero, or_self]
      exact h
  · intro h
    simp [fit_power_law, linregress, h, Except.map]

/-- C2 amended witness: a single valid pair gives a normal return. -/
theorem fit_power_law_error_iff_empty_witness :
    maskNan [FV.fin 0] [FV.fin 1] ≠ [] ∧
      (fit_power_law tsfW [FV.fin 0] [FV.fin 1]).isOk = true :=
  ⟨by simp [maskNan, List.filterMap_cons, FV.isNan, FV.val],
    (fit_power_law_error_iff_empty tsfW [FV.fin 0] [FV.fin 1]).1
      (by simp [maskNan, List.filterMap_cons, FV.isNan, FV.val])⟩

/-- C7: with at least two valid pairs, the unit-exponent ODR fit returns
exponent exactly 1 and prefactor `exp` of the intercept the optimiser
returned for the `slope_one` model (whose single free parameter is the
intercept), whatever the optimiser and the data. -/
theorem fit_odr_unit_exponent
    (odrRun : (List ℝ → ℝ → ℝ) → List ℝ → List ℝ → List ℝ → List ℝ)
    (tsf : ℝ → ℝ → ℝ) (log_xs log_ys : List (FV ℝ))
    (h2 : 2 ≤ (odrMask log_xs log_ys).length) :
    ∃ rc, fit_power_law_odr odrRun tsf log_xs log_ys true = .ok (1,
      Real.exp ((odrRun slope_one ((odrMask log_xs log_ys).map Prod.fst)
          ((odrMask log_xs log_ys).map Prod.snd)
          [(linregressRes tsf ((odrMask log_xs log_ys).map Prod.fst)
            ((odrMask log_xs log_ys).map Prod.snd)).intercept]).getD 0 0),
      rc) := by
  have h0 : ¬((odrMask log_xs log_ys).length = 0) := by omega
  have hlt : ¬((odrMask log_xs log_ys).length < 2) := by omega
  simp only [fit_power_law_odr, linregress, pearsonr, List.length_map,
    or_self, h0, hlt, if_false, Except.bind, Except.map, if_true]
  exact ⟨_, rfl⟩

/-- Concrete log-scale input with two finite entries. -/
noncomputable def logW : List (FV ℝ) := [FV.fin 0, FV.fin 1]

/-- C7 witness at a concrete two-point input and the identity optimiser. -/
theorem fit_odr_unit_exponent_witness :
    2 ≤ (odrMask logW logW).length ∧
      ∃ rc, fit_power_law_odr odrW tsfW logW logW true = .ok (1,
        Real.exp ((odrW slope_one ((odrMask logW logW).map Prod.fst)
            ((odrMask logW logW).map Prod.snd)
            [(linregressRes tsfW ((odrMask logW logW).map Prod.fst)
              ((odrMask logW logW).map Prod.snd)).intercept]).getD 0 0),
        rc) :=
  ⟨Nat.le_refl 2, fit_odr_unit_exponent odrW tsfW logW logW (Nat.le_refl 2)⟩

/-- A filterMap whose function succeeds on every element is a map. -/
theorem filterMap_eq_map_of_some {α β : Type} (f : α → Option β) (g : α → β)
    (l : List α) (h : ∀ a ∈ l, f a = some (g a)) : l.filterMap f = l.map g := by
  induction l with
  | nil => rfl
  | cons x xs ih =>
    rw [List.filterMap_cons, h x (List.mem_cons_self x xs), List.map_cons,
      ih fun a ha => h a (List.mem_cons_of_mem x ha)]

/-- An exception-free fold of `mapM` over `Except`. -/
theorem mapM_ok {ε α β : Type} (f : β → Except ε α) (g : β → α) (l : List β)
    (h : ∀ x ∈ l, f x = .ok (g x)) : l.mapM f = .ok (l.map g) := by
  induction l with
  | nil => rfl
  | cons x xs ih =>
    rw [List.mapM_cons, h x (List.mem_cons_self x xs),
      ih fun a ha => h a (List.mem_cons_of_mem x ha)]
    rfl

/-- Reading a mapped range at an in-bounds index. -/
theorem getD_map_range {α : Type} (n k : ℕ) (f : ℕ → α) (d : α) (h : k < n) :
    ((List.range n).map f).getD k d = f k := by
  rw [List.getD_eq_getElem?_getD, List.getElem?_map, List.getElem?_range h]
  rfl

/-- On positive rational data, the log transform produces finite entries
only, so the ODR mask keeps every pair. -/
theorem odrMask_map_npLogQ (as bs : List ℚ)
    (ha : ∀ a ∈ as, 0 < a) (hb : ∀ b ∈ bs, 0 < b) :
    odrMask (as.map npLogQ) (bs.map npLogQ) =
      (as.zip bs).map fun p => (Real.log (p.1 : ℝ), Real.log (p.2 : ℝ)) := by
  unfold odrMask
  rw [List.zip_map, List.filterMap_map]
  apply filterMap_eq_map_of_some
  intro p hp
  obtain ⟨a, b⟩ := p
  obtain ⟨hamem, hbmem⟩ := List.of_mem_zip hp
  have ha' : npLogQ a = .fin (Real.log (a : ℝ)) := by
    unfold npLogQ
    rw [if_pos (ha a hamem)]
  have hb' : npLogQ b = .fin (Real.log (b : ℝ)) := by
    unfold npLogQ
    rw [if_pos (hb b hbmem)]
  simp [Prod.map, ha', hb', FV.isNan, FV.isFinite, FV.val]

/-- Any ODR fit on at least two valid pairs returns normally. -/
theorem fit_odr_ok
    (odrRun : (List ℝ → ℝ → ℝ) → List ℝ → List ℝ → List ℝ → List ℝ)
    (tsf : ℝ → ℝ → ℝ) (lx ly : List (FV ℝ)) (ue : Bool)
    (h2 : 2 ≤ (odrMask lx ly).length) :
    ∃ v, fit_power_law_odr odrRun tsf lx ly ue = .ok v := by
  have h0 : ¬((odrMask lx ly).length = 0) := by omega
  have hlt : ¬((odrMask lx ly).length < 2) := by omega
  simp only [fit_power_law_odr, linregress, pearsonr, List.length_map,
    or_self, h0, hlt, if_false, Except.bind, Except.map]
  exact ⟨_, rfl⟩

/-- A bootstrap round whose subsample is drawn from positive valid data with
at least two indices returns normally. -/
theorem bootstrapRound_ok
    (odrRun : (List ℝ → ℝ → ℝ) → List ℝ → List ℝ → List ℝ → List ℝ)
    (tsf : ℝ → ℝ → ℝ) (choice : ℕ → List ℕ) (xs ys : List (FV ℚ)) (k : ℕ)
    (hpos : ∀ p ∈ bootstrapValid xs ys, 0 < p.1 ∧ 0 < p.2)
    (hlen : 2 ≤ (choice k).length)
    (hidx : ∀ i ∈ choice k, i < (bootstrapValid xs ys).length) :
    ∃ v, bootstrapRound odrRun tsf choice xs ys k = .ok v := by
  have hxpos : ∀ a ∈ (choice k).map
      (fun i => ((bootstrapValid xs ys).map Prod.fst).getD i 0), 0 < a := by
    intro a ha
    rw [List.mem_map] at ha
    obtain ⟨i, hi, rfl⟩ := ha
    have hilt : i < (bootstrapValid xs ys).length := hidx i hi
    rw [List.getD_eq_getElem?_getD, List.getElem?_map,
      List.getElem?_eq_getElem hilt]
    simp only [Option.map_some', Option.getD_some]
    exact (hpos _ (List.getElem_mem hilt)).1
  have hypos : ∀ b ∈ (choice k).map
      (fun i => ((bootstrapValid xs ys).map Prod.snd).getD i 0), 0 < b := by
    intro b hb
    rw [List.mem_map] at hb
    obtain ⟨i, hi, rfl⟩ := hb
    have hilt : i < (bootstrapValid xs ys).length := hidx i hi
    rw [List.getD_eq_getElem?_getD, List.getElem?_map,
      List.getElem?_eq_getElem hilt]
    simp only [Option.map_some', Option.getD_some]
    exact (hpos _ (List.getElem_mem hilt)).2
  simp only [bootstrapRound]
  apply fit_odr_ok
  rw [odrMask_map_npLogQ _ _ hxpos hypos, List.length_map, List.length_zip,
    List.length_map, List.length_map]
  omega

/-- C6 counterexample: with exactly 2 finite pairs and the default fraction
0.9, the subsample size is 1, and the correlation step of the per-round fit
raises ValueError (input shorter than 2), so the bootstrap aborts instead of
returning three sequences of length `rounds`. -/
theorem bootstrap_two_valid_pairs_errors :
    (bootstrapValid [FV.fin 1, FV.fin 1] [FV.fin 1, FV.fin 1]).length = 2 ∧
    subsetSize [FV.fin 1, FV.fin 1] [FV.fin 1, FV.fin 1] (9 / 10) = 1 ∧
    ((fun _ : ℕ => [0]) 0).length =
      subsetSize [FV.fin 1, FV.fin 1] [FV.fin 1, FV.fin 1] (9 / 10) ∧
    (∀ i ∈ (fun _ : ℕ => [0]) 0,
      i < (bootstrapValid [FV.fin 1, FV.fin 1] [FV.fin 1, FV.fin 1]).length) ∧
    bootstrap_power_law_odr odrW tsfW (fun _ => [0])
      [FV.fin 1, FV.fin 1] [FV.fin 1, FV.fin 1] (9 / 10) 1 =
      .error PyErr.pearsonTooShort := by
  have hv : bootstrapValid [FV.fin 1, FV.fin 1] [FV.fin 1, FV.fin 1] =
      [((1 : ℚ), (1 : ℚ)), (1, 1)] := rfl
  have hlen2 : ((bootstrapValid [FV.fin 1, FV.fin 1]
      [FV.fin 1, FV.fin 1]).length : ℚ) = 2 := by
    rw [hv]
    norm_num
  have hfl : ⌊(9 / 5 : ℚ)⌋ = 1 := by
    rw [Int.floor_eq_iff]
    norm_num
  have hsub : subsetSize [FV.fin 1, FV.fin 1] [FV.fin 1, FV.fin 1]
      (9 / 10) = 1 := by
    unfold subsetSize pyInt
    rw [hlen2, if_pos (by norm_num : (0 : ℚ) ≤ 9 / 10 * 2),
      show (9 / 10 : ℚ) * 2 = 9 / 5 by norm_num, hfl]
    rfl
  refine ⟨by rw [hv]; rfl, hsub, by rw [hsub]; rfl, by decide, ?_⟩
  rfl

/-- C6 amended: the subsample size is `floor(fraction * n_valid)`, and as
long as every round's fit succeeds — guaranteed here by positive valid data
and a subsample size of at least 2 — the bootstrap returns three sequences
of length exactly `rounds`, the k-th entries being the exponent, prefactor
and correlation of the ODR fit on the log of the k-th subsample.  (With a
subsample size below 2 the underlying correlation raises ValueError instead,
see the counterexample.) -/
theorem bootstrap_spec
    (odrRun : (List ℝ → ℝ → ℝ) → List ℝ → List ℝ → List ℝ → List ℝ)
    (tsf : ℝ → ℝ → ℝ) (choice : ℕ → List ℕ) (xs ys : List (FV ℚ))
    (fraction : ℚ) (rounds : ℕ)
    (hfrac : 0 ≤ fraction)
    (h2 : 2 ≤ (bootstrapValid xs ys).length)
    (hsz : 2 ≤ subsetSize xs ys fraction)
    (hpos : ∀ p ∈ bootstrapValid xs ys, 0 < p.1 ∧ 0 < p.2)
    (hchoice : ∀ k, (choice k).length = subsetSize xs ys fraction ∧
      ∀ i ∈ choice k, i < (bootstrapValid xs ys).length) :
    subsetSize xs ys fraction =
      (⌊fraction * ((bootstrapValid xs ys).length : ℚ)⌋).toNat ∧
    ∃ es ps rs,
      bootstrap_power_law_odr odrRun tsf choice xs ys fraction rounds =
        .ok (es, ps, rs) ∧
      es.length = rounds ∧ ps.length = rounds ∧ rs.length = rounds ∧
      ∀ k, k < rounds →
        Except.ok (es.getD k 0, ps.getD k 0, rs.getD k 0) =
          bootstrapRound odrRun tsf choice xs ys k := by
  constructor
  · unfold subsetSize pyInt
    rw [if_pos (mul_nonneg hfrac (Nat.cast_nonneg _))]
  · have hg : ∀ k, bootstrapRound odrRun tsf choice xs ys k =
        .ok ((bootstrapRound odrRun tsf choice xs ys k).toOption.getD
          (0, 0, 0)) := by
      intro k
      obtain ⟨v, hv⟩ := bootstrapRound_ok odrRun tsf choice xs ys k hpos
        (by rw [(hchoice k).1]; exact hsz) (hchoice k).2
      rw [hv]
      rfl
    have hmap : (List.range rounds).mapM
        (fun k => bootstrapRound odrRun tsf choice xs ys k) =
        .ok ((List.range rounds).map fun k =>
          (bootstrapRound odrRun tsf choice xs ys k).toOption.getD (0, 0, 0)) :=
      mapM_ok _ _ _ fun k _ => hg k
    refine ⟨((List.range rounds).map fun k =>
        (bootstrapRound odrRun tsf choice xs ys k).toOption.getD
          (0, 0, 0)).map (fun t => t.1),
      ((List.range rounds).map fun k =>
        (bootstrapRound odrRun tsf choice xs ys k).toOption.getD
          (0, 0, 0)).map (fun t => t.2.1),
      ((List.range rounds).map fun k =>
        (bootstrapRound odrRun tsf choice xs ys k).toOption.getD
          (0, 0, 0)).map (fun t => t.2.2), ?_, ?_, ?_, ?_, ?_⟩
    · unfold bootstrap_power_law_odr
      rw [hmap]
    · simp [List.length_map, List.length_range]
    · simp [List.length_map, List.length_range]
    · simp [List.length_map, List.length_range]
    · intro k hk
      rw [List.map_map, List.map_map, List.map_map,
        getD_map_range _ _ _ _ hk, getD_map_range _ _ _ _ hk,
        getD_map_range _ _ _ _ hk, hg k]
      rfl

/-- Concrete linear-scale input with three finite positive entries. -/
def qW3 : List (FV ℚ) := [FV.fin 1, FV.fin 1, FV.fin 1]

/-- Concrete index oracle drawing the subsample [0, 1] in every round. -/
def choiceW2 : ℕ → List ℕ := fun _ => [0, 1]

/-- C6 amended witness: three valid positive pairs at the default fraction
give a subsample size of 2 and a bootstrap of the requested length. -/
theorem bootstrap_spec_witness :
    (0 ≤ (9 / 10 : ℚ) ∧ 2 ≤ (bootstrapValid qW3 qW3).length ∧
      2 ≤ subsetSize qW3 qW3 (9 / 10) ∧
      ∀ p ∈ bootstrapValid qW3 qW3, 0 < p.1 ∧ 0 < p.2) ∧
    ∃ es ps rs,
      bootstrap_power_law_odr odrW tsfW choiceW2 qW3 qW3 (9 / 10) 2 =
        .ok (es, ps, rs) ∧ es.length = 2 := by
  have hv3 : bootstrapValid qW3 qW3 = [((1 : ℚ), (1 : ℚ)), (1, 1), (1, 1)] := rfl
  have hlen3 : ((bootstrapValid qW3 qW3).length : ℚ) = 3 := by
    rw [hv3]
    norm_num
  have hfl3 : ⌊(27 / 10 : ℚ)⌋ = 2 := by
    rw [Int.floor_eq_iff]
    norm_num
  have hsub3 : subsetSize qW3 qW3 (9 / 10) = 2 := by
    unfold subsetSize pyInt
    rw [hlen3, if_pos (by norm_num : (0 : ℚ) ≤ 9 / 10 * 3),
      show (9 / 10 : ℚ) * 3 = 27 / 10 by norm_num, hfl3]
    rfl
  have hl3 : (bootstrapValid qW3 qW3).length = 3 := by
    rw [hv3]
    rfl
  have h := (bootstrap_spec odrW tsfW choiceW2 qW3 qW3 (9 / 10) 2
    (by norm_num) (by rw [hl3]; omega) (by rw [hsub3]) (by decide)
    (fun k => ⟨by rw [hsub3]; rfl, by
      intro i hi
      rw [hl3]
      simp only [choiceW2, List.mem_cons, List.not_mem_nil, or_false] at hi
      rcases hi with rfl | rfl <;> omega⟩)).2
  obtain ⟨es, ps, rs, h1, h2, -⟩ := h
  exact ⟨⟨by norm_num, by rw [hl3]; omega, by rw [hsub3], by decide⟩,
    es, ps, rs, h1, h2⟩

/-- A list of zeros has mean zero. -/
theorem meanR_all_zero (l : List ℝ) (h : ∀ z ∈ l, z = 0) : meanR l = 0 := by
  unfold meanR
  rw [List.sum_eq_card_nsmul _ 0 h, smul_zero, zero_div]

/-- A nonnegative list with a positive member has positive mean. -/
theorem meanR_pos (l : List ℝ) (hnn : ∀ z ∈ l, 0 ≤ z) (x : ℝ) (hx : x ∈ l)
    (hxpos : 0 < x) : 0 < meanR l := by
  unfold meanR
  apply div_pos (lt_of_lt_of_le hxpos (List.single_le_sum hnn x hx))
  have hne : l ≠ [] := by
    intro h0
    rw [h0] at hx
    exact List.not_mem_nil x hx
  exact_mod_cast List.length_pos.mpr hne

/-- C4 (spec-modelled): `fit_tls` fails with DegenerateAxisError exactly on
a vertical principal axis; otherwise it returns exponent
`axis_y / axis_x` and prefactor `exp(mean_y - exponent * mean_x)`; and on
valid data whose log x values are all identical (with at least two distinct
y values) the principal axis is vertical, so the fit fails. -/
theorem fit_tls_spec (log_xs log_ys : List (FV ℝ)) :
    ((tlsAxis (odrMask log_xs log_ys)).1 = 0 →
      fit_tls log_xs log_ys = .error PyErr.degenerateAxis) ∧
    ((tlsAxis (odrMask log_xs log_ys)).1 ≠ 0 →
      ∃ r2v, fit_tls log_xs log_ys = .ok
        ((tlsAxis (odrMask log_xs log_ys)).2 /
            (tlsAxis (odrMask log_xs log_ys)).1,
          Real.exp (meanR ((odrMask log_xs log_ys).map Prod.snd) -
            (tlsAxis (odrMask log_xs log_ys)).2 /
              (tlsAxis (odrMask log_xs log_ys)).1 *
              meanR ((odrMask log_xs log_ys).map Prod.fst)),
          r2v)) ∧
    (∀ c : ℝ, (∀ p ∈ odrMask log_xs log_ys, p.1 = c) →
      (∃ p ∈ odrMask log_xs log_ys, ∃ q ∈ odrMask log_xs log_ys, p.2 ≠ q.2) →
      fit_tls log_xs log_ys = .error PyErr.degenerateAxis) := by
  have hkey : (tlsAxis (odrMask log_xs log_ys)).1 = 0 →
      fit_tls log_xs log_ys = .error PyErr.degenerateAxis := by
    intro h
    simp only [fit_tls]
    rw [if_pos h]
  refine ⟨hkey, ?_, ?_⟩
  · intro h
    apply Exists.intro
    simp only [fit_tls]
    rw [if_neg h]
  · intro c h1 h2
    obtain ⟨p, hp, q, hq, hne⟩ := h2
    have hxall : ∀ x ∈ (odrMask log_xs log_ys).map Prod.fst, x = c := by
      intro x hx
      rw [List.mem_map] at hx
      obtain ⟨p', hp', rfl⟩ := hx
      exact h1 p' hp'
    have hxne : (odrMask log_xs log_ys).map Prod.fst ≠ [] := by
      intro hnil
      rw [List.map_eq_nil_iff] at hnil
      rw [hnil] at hp
      exact List.not_mem_nil p hp
    have hmx : meanR ((odrMask log_xs log_ys).map Prod.fst) = c := by
      unfold meanR
      rw [List.sum_eq_card_nsmul _ c hxall, nsmul_eq_mul]
      exact mul_div_cancel_left₀ c (Nat.cast_ne_zero.mpr
        fun h0 => hxne (List.length_eq_zero.mp h0))
    have hsxx : ssxmOf ((odrMask log_xs log_ys).map Prod.fst) = 0 := by
      unfold ssxmOf
      rw [hmx]
      apply meanR_all_zero
      intro z hz
      rw [List.mem_map] at hz
      obtain ⟨x, hx, rfl⟩ := hz
      rw [hxall x hx]
      ring
    have hsxy : ssxymOf ((odrMask log_xs log_ys).map Prod.fst)
        ((odrMask log_xs log_ys).map Prod.snd) = 0 := by
      unfold ssxymOf
      rw [hmx]
      apply meanR_all_zero
      intro z hz
      rw [List.mem_map] at hz
      obtain ⟨w, hw, rfl⟩ := hz
      obtain ⟨a, b⟩ := w
      have hamem := (List.of_mem_zip hw).1
      rw [hxall a hamem]
      ring
    have hsyy : 0 < ssxmOf ((odrMask log_xs log_ys).map Prod.snd) := by
      have hb : ∃ b ∈ (odrMask log_xs log_ys).map Prod.snd,
          b ≠ meanR ((odrMask log_xs log_ys).map Prod.snd) := by
        by_contra hcon
        push_neg at hcon
        have e1 := hcon p.2 (List.mem_map_of_mem Prod.snd hp)
        have e2 := hcon q.2 (List.mem_map_of_mem Prod.snd hq)
        exact hne (e1.trans e2.symm)
      obtain ⟨b, hbmem, hbne⟩ := hb
      unfold ssxmOf
      have hmem := List.mem_map_of_mem
        (fun y => (y - meanR ((odrMask log_xs log_ys).map Prod.snd)) ^ 2) hbmem
      apply meanR_pos _ _ _ hmem
        (pow_two_pos_of_ne_zero (sub_ne_zero.mpr hbne))
      intro z hz
      rw [List.mem_map] at hz
      obtain ⟨y, -, rfl⟩ := hz
      positivity
    have haxis : (tlsAxis (odrMask log_xs log_ys)).1 = 0 := by
      simp only [tlsAxis]
      rw [if_pos hsxy, hsxx, if_neg (not_le.mpr hsyy)]
    exact hkey haxis

/-- Concrete log-scale x input with three identical finite entries. -/
noncomputable def xsW3 : List (FV ℝ) := [FV.fin 0, FV.fin 0, FV.fin 0]

/-- Concrete log-scale y input with three distinct finite entries. -/
noncomputable def ysW3 : List (FV ℝ) := [FV.fin 0, FV.fin 1, FV.fin 2]

/-- C4 witness: on vertical data (all log x equal, two distinct log y) the
spec-modelled fit fails with DegenerateAxisError. -/
theorem fit_tls_spec_witness :
    (∀ p ∈ odrMask xsW3 ysW3, p.1 = (0 : ℝ)) ∧
    (∃ p ∈ odrMask xsW3 ysW3, ∃ q ∈ odrMask xsW3 ysW3, p.2 ≠ q.2) ∧
    fit_tls xsW3 ysW3 = .error PyErr.degenerateAxis := by
  have hmask : odrMask xsW3 ysW3 =
      [((0 : ℝ), (0 : ℝ)), (0, 1), (0, 2)] := rfl
  have h1 : ∀ p ∈ odrMask xsW3 ysW3, p.1 = (0 : ℝ) := by
    rw [hmask]
    intro p hp
    simp only [List.mem_cons, List.not_mem_nil, or_false] at hp
    rcases hp with rfl | rfl | rfl <;> rfl
  have h2 : ∃ p ∈ odrMask xsW3 ysW3, ∃ q ∈ odrMask xsW3 ysW3, p.2 ≠ q.2 := by
    rw [hmask]
    exact ⟨(0, 0), by simp, (0, 1), by simp, by norm_num⟩
  exact ⟨h1, h2, (fit_tls_spec xsW3 ysW3).2.2 0 h1 h2⟩

end Rubisco
